import Mathlib

/-!
Shallow embedding of the proof-of-work ledger engine: the digest utility
(`HashUtil`), the `Transaction` and `Block` value objects, and the
`Blockchain` (Ledger) state with its operations.  JS strings are modelled
as lists of UTF-16 code units (`List Nat`), JS numbers used for amounts
and fees as rationals, and JS integer fields (indices, timestamps,
nonces) as `Int`.  The JS mining loop and Merkle reduction loop are
modelled with explicit fuel; the fuel chosen at each call site always
suffices for the loop's actual trip count.
-/

/-- JS `ToInt32`: wrap an integer into the signed 32-bit range. -/
def toInt32 (n : Int) : Int := (n + 2 ^ 31) % 2 ^ 32 - 2 ^ 31

/-- One step of the loop body of `HashUtil.sha256Sync`:
`hash = ((hash << 5) - hash) + char; hash = hash & hash`. -/
def hashStep (h : Int) (c : Nat) : Int := toInt32 (toInt32 (h * 32) - h + c)

/-- The loop of `HashUtil.sha256Sync`, with a strict accumulator: the
match on the constructors of `Int` is the identity on the state and only
forces each intermediate 32-bit value to be computed before the next
iteration. -/
def sha256SyncAux : Int → List Nat → Int
  | h, [] => h
  | h, c :: rest =>
    match hashStep h c with
    | Int.ofNat m => sha256SyncAux (Int.ofNat m) rest
    | Int.negSucc m => sha256SyncAux (Int.negSucc m) rest

/-- The 32-bit accumulator computed by the loop of `HashUtil.sha256Sync`. -/
def sha256SyncCore (data : List Nat) : Int := sha256SyncAux 0 data

/-- Code unit of a digit as produced by JS `Number.prototype.toString(base)`
(digits `0`-`9` then lowercase `a`-`f`). -/
def digitChar (d : Nat) : Nat := if d < 10 then 48 + d else 87 + d

/-- Digits (most significant first) of `n` in the given base; the fuel
bounds the recursion depth, and any fuel at least the digit count of `n`
yields the exact digit string. -/
def natDigitsAux (base : Nat) : Nat → Nat → List Nat
  | 0, _ => []
  | fuel + 1, n => if n = 0 then [] else natDigitsAux base fuel (n / base) ++ [digitChar (n % base)]

/-- JS `n.toString(base)` for a natural number.  Fuel 32 suffices for every
value with at most 32 digits, in particular for every integer a JS number
can hold exactly (below 2^53) and for the 32-bit digest accumulator. -/
def natToBaseStr (base n : Nat) : List Nat := if n = 0 then [48] else natDigitsAux base 32 n

/-- JS template-literal rendering of an integer. -/
def intToStr (i : Int) : List Nat :=
  if i < 0 then 45 :: natToBaseStr 10 i.natAbs else natToBaseStr 10 i.natAbs

/-- JS `String.prototype.padStart(w, '0')`. -/
def padStartZeros (w : Nat) (l : List Nat) : List Nat := List.replicate (w - l.length) 48 ++ l

/-- `HashUtil.sha256Sync`: the demo digest — the 32-bit string hash,
absolute value rendered as 8 zero-padded hex digits, repeated 8 times and
truncated to 64 characters. -/
def HashUtil.sha256Sync (data : List Nat) : List Nat :=
  let hx := padStartZeros 8 (natToBaseStr 16 (sha256SyncCore data).natAbs)
  (List.flatten (List.replicate 8 hx)).take 64

/-- Fractional digits of a nonnegative rational below 1, as produced by
repeated multiplication by 10 (the expansion of a JS decimal literal). -/
def fracDigitsAux : Nat → ℚ → List Nat
  | 0, _ => []
  | fuel + 1, r =>
    if r = 0 then [] else
      let r10 : ℚ := r * 10
      let d : Nat := r10.num.toNat / r10.den
      (48 + d) :: fracDigitsAux fuel (r10 - (d : ℚ))

/-- JS template-literal rendering of a nonnegative number. -/
def jsNumToStrNN (q : ℚ) : List Nat :=
  let ip : Nat := q.num.toNat / q.den
  let frac : ℚ := q - (ip : ℚ)
  if frac = 0 then natToBaseStr 10 ip else natToBaseStr 10 ip ++ 46 :: fracDigitsAux 64 frac

/-- JS template-literal rendering of a number (amounts and fees). -/
def jsNumToStr (q : ℚ) : List Nat := if q < 0 then 45 :: jsNumToStrNN (-q) else jsNumToStrNN q

/-- The sentinel sender string `"SYSTEM"` of coinbase transactions. -/
def SYSTEM : List Nat := [83, 89, 83, 84, 69, 77]

/-- A transaction; fields `from` and `to` of the source are `sender` and
`recipient` here (`from` and `to` are reserved in Lean). -/
structure Transaction where
  sender : List Nat
  recipient : List Nat
  amount : ℚ
  fee : ℚ
  timestamp : Int
  signature : List Nat
  hash : List Nat
deriving DecidableEq

/-- `Transaction.calculateHash`: digest of the concatenated rendering of
the five value fields. -/
def Transaction.calculateHash (t : Transaction) : List Nat :=
  HashUtil.sha256Sync (t.sender ++ t.recipient ++ jsNumToStr t.amount ++ jsNumToStr t.fee ++ intToStr t.timestamp)

/-- The `Transaction` constructor: signature defaults to the empty string,
the digest is computed immediately. -/
def Transaction.make (sender recipient : List Nat) (amount fee : ℚ) (timestamp : Int)
    (signature : Option (List Nat)) : Transaction :=
  let sig := match signature with | none => [] | some s => s
  let t0 : Transaction := ⟨sender, recipient, amount, fee, timestamp, sig, []⟩
  { t0 with hash := t0.calculateHash }

/-- `Transaction.isValid`. -/
def Transaction.isValid (t : Transaction) : Bool :=
  if t.sender = t.recipient then false
  else if t.amount ≤ 0 then false
  else if t.fee < 0 then false
  else if t.signature = [] then false
  else if t.sender = SYSTEM then true
  else true

/-- `Transaction.createCoinbaseTransaction`; `now` stands for the
`Date.now()` call. -/
def Transaction.createCoinbaseTransaction (recipient : List Nat) (amount : ℚ) (now : Int) : Transaction :=
  Transaction.make SYSTEM recipient amount 0 now none

/-- One level of combination inside `HashUtil.calculateMerkleRoot`: the
`for (i += 2)` loop pairing the last element of an odd level with itself. -/
def combinePairs : List (List Nat) → List (List Nat)
  | [] => []
  | [x] => [HashUtil.sha256Sync (x ++ x)]
  | x :: y :: rest => HashUtil.sha256Sync (x ++ y) :: combinePairs rest

/-- The `while (hashes.length > 1)` loop of `HashUtil.calculateMerkleRoot`;
each pass at least halves a length above 1, so fuel equal to the list
length always suffices. -/
def reduceLevelsFuel : Nat → List (List Nat) → List (List Nat)
  | 0, hs => hs
  | fuel + 1, hs => if hs.length > 1 then reduceLevelsFuel fuel (combinePairs hs) else hs

/-- `HashUtil.calculateMerkleRoot`. -/
def HashUtil.calculateMerkleRoot (transactions : List (List Nat)) : List Nat :=
  match transactions with
  | [] => HashUtil.sha256Sync []
  | [t] => HashUtil.sha256Sync t
  | t₁ :: t₂ :: rest =>
    let hashes := (t₁ :: t₂ :: rest).map HashUtil.sha256Sync
    (reduceLevelsFuel hashes.length hashes).headD []

/-- Modelled from the spec's words for the Merkle reduction: starting
from a level of digests, pairwise-concatenate-and-hash level by level
(the last element of an odd-count level paired with itself) until one
digest remains. -/
def merkleLevels (hs : List (List Nat)) : List (List Nat) :=
  if h : 1 < hs.length then merkleLevels (combinePairs hs) else hs
termination_by hs.length
decreasing_by
  have key : ∀ l : List (List Nat), (combinePairs l).length * 2 ≤ l.length + 1 := by
    intro l
    induction l using combinePairs.induct with
    | case1 => simp [combinePairs]
    | case2 x => simp [combinePairs]
    | case3 x y rest ih =>
      simp only [combinePairs, List.length_cons]
      omega
  have := key hs
  omega

/-- `HashUtil.isValidProofOfWork`. -/
def HashUtil.isValidProofOfWork (hash : List Nat) (difficulty : Nat) : Bool :=
  decide (hash.take difficulty = List.replicate difficulty 48)

/-- A block. -/
structure Block where
  index : Int
  timestamp : Int
  transactions : List Transaction
  previousHash : List Nat
  nonce : Int
  hash : List Nat
  merkleRoot : List Nat
deriving DecidableEq

/-- `Block.calculateHash`. -/
def Block.calculateHash (b : Block) : List Nat :=
  HashUtil.sha256Sync (intToStr b.index ++ b.previousHash ++ intToStr b.timestamp ++ b.merkleRoot ++ intToStr b.nonce)

/-- `Block.calculateMerkleRoot`. -/
def Block.calculateMerkleRoot (b : Block) : List Nat :=
  if b.transactions = [] then HashUtil.sha256Sync []
  else HashUtil.calculateMerkleRoot (b.transactions.map Transaction.hash)

/-- The `Block` constructor: `nonce` defaults to 0, the Merkle root is
computed, and the digest defaults to the computed one when absent (JS
`data.hash || this.calculateHash()`, where the empty string is falsy). -/
def Block.make (index timestamp : Int) (transactions : List Transaction) (previousHash : List Nat)
    (nonce : Option Int) (hash : Option (List Nat)) : Block :=
  let n : Int := match nonce with | none => 0 | some v => v
  let b0 : Block := ⟨index, timestamp, transactions, previousHash, n, [], []⟩
  let b1 : Block := { b0 with merkleRoot := b0.calculateMerkleRoot }
  { b1 with hash := match hash with | none => b1.calculateHash | some h => if h = [] then b1.calculateHash else h }

/-- `Block.mineBlock`, with fuel bounding the number of loop iterations of
the unbounded JS `while` loop; `some` is returned exactly when the loop
exits within the fuel. -/
def Block.mineBlockFuel (difficulty : Nat) : Nat → Block → Option Block
  | 0, b =>
    if b.hash.take difficulty = List.replicate difficulty 48 then some b else none
  | fuel + 1, b =>
    if b.hash.take difficulty = List.replicate difficulty 48 then some b
    else
      let b' : Block := { b with nonce := b.nonce + 1 }
      Block.mineBlockFuel difficulty fuel { b' with hash := b'.calculateHash }

/-- `Block.validateTransactions`. -/
def Block.validateTransactions (b : Block) : Bool := b.transactions.all Transaction.isValid

/-- `Block.isValidBlock`: the source returns `false` at the first failing
check, which equals this conjunction. -/
def Block.isValidBlock (b : Block) (previousBlock : Option Block) (difficulty : Option Nat) : Bool :=
  decide (b.hash = b.calculateHash) &&
  decide (b.merkleRoot = b.calculateMerkleRoot) &&
  (match previousBlock with | none => true | some p => decide (b.previousHash = p.hash)) &&
  (match difficulty with | none => true | some d => HashUtil.isValidProofOfWork b.hash d) &&
  b.validateTransactions

/-- The Ledger state. -/
structure Blockchain where
  chain : List Block
  pendingTransactions : List Transaction
  difficulty : Nat
  miningReward : ℚ
  maxTransactionsPerBlock : Nat
deriving DecidableEq

/-- `Blockchain.getLatestBlock` (`undefined` on an empty chain becomes
`none`). -/
def Blockchain.getLatestBlock? (bc : Blockchain) : Option Block := bc.chain.getLast?

/-- `Blockchain.getBalance`: full replay over every transaction of every
chain block. -/
def Blockchain.getBalance (bc : Blockchain) (address : List Nat) : ℚ :=
  bc.chain.foldl (fun bal block =>
    block.transactions.foldl (fun bal tx =>
      let bal := if tx.recipient = address then bal + tx.amount else bal
      if tx.sender = address then bal - (tx.amount + tx.fee) else bal) bal) 0

/-- `Blockchain.addTransaction`: returns the outcome and the (possibly
unchanged) successor state. -/
def Blockchain.addTransaction (bc : Blockchain) (t : Transaction) : Bool × Blockchain :=
  if t.isValid = false then (false, bc)
  else if t.sender ≠ SYSTEM ∧ bc.getBalance t.sender < t.amount + t.fee then (false, bc)
  else if bc.pendingTransactions.any (fun tx => decide (tx.hash = t.hash)) then (false, bc)
  else (true, { bc with pendingTransactions := bc.pendingTransactions ++ [t] })

/-- `Blockchain.getTotalFees`. -/
def Blockchain.getTotalFees (transactions : List Transaction) : ℚ :=
  transactions.foldl (fun total tx => total + tx.fee) 0

/-- `Blockchain.mineBlock`; `now` stands for `Date.now()` (the source
reads the clock twice in immediate succession; both reads are modelled by
the same instant), and the fuel bounds the nonce search.  `none` models a
call that crashed on an empty chain or did not finish within the fuel. -/
def Blockchain.mineBlock (bc : Blockchain) (minerAddress : List Nat) (now : Int) (fuel : Nat) :
    Option (Block × Blockchain) :=
  match bc.chain.getLast? with
  | none => none
  | some latest =>
    let transactionsToMine := bc.pendingTransactions.take bc.maxTransactionsPerBlock
    let coinbaseTransaction := Transaction.createCoinbaseTransaction minerAddress
      (bc.miningReward + Blockchain.getTotalFees transactionsToMine) now
    let newBlock := Block.make (bc.chain.length : Int) now
      (coinbaseTransaction :: transactionsToMine) latest.hash none none
    match Block.mineBlockFuel bc.difficulty fuel newBlock with
    | none => none
    | some mined =>
      some (mined, { bc with
        chain := bc.chain ++ [mined],
        pendingTransactions := bc.pendingTransactions.drop bc.maxTransactionsPerBlock })

/-- The indexed loop of `Blockchain.isChainValid`, walking adjacent
pairs `(chain[i-1], chain[i])` in order. -/
def chainStepsValid (difficulty : Nat) : List Block → Bool
  | [] => true
  | [_] => true
  | p :: q :: rest =>
    (q.isValidBlock (some p) (some difficulty) && decide (q.previousHash = p.hash)) &&
      chainStepsValid difficulty (q :: rest)

/-- `Blockchain.isChainValid`. -/
def Blockchain.isChainValid (bc : Blockchain) : Bool := chainStepsValid bc.difficulty bc.chain

/-- The fixed target block interval of `Blockchain.adjustDifficulty`. -/
def targetBlockTime : Int := 30000

/-- `Blockchain.adjustDifficulty`. -/
def Blockchain.adjustDifficulty (bc : Blockchain) : Blockchain :=
  if bc.chain.length < 2 then bc
  else
    match bc.chain.getLast?, bc.chain.get? (bc.chain.length - 2) with
    | some lastBlock, some previousBlock =>
      let actualTime := lastBlock.timestamp - previousBlock.timestamp
      if actualTime < targetBlockTime / 2 then { bc with difficulty := bc.difficulty + 1 }
      else if actualTime > targetBlockTime * 2 then { bc with difficulty := max 1 (bc.difficulty - 1) }
      else bc
    | _, _ => bc

/-- The plain-object rendering of a transaction (`Transaction.toObject`). -/
structure TransactionObject where
  sender : List Nat
  recipient : List Nat
  amount : ℚ
  fee : ℚ
  timestamp : Int
  signature : List Nat
  hash : List Nat
deriving DecidableEq

/-- `Transaction.toObject`. -/
def Transaction.toObject (t : Transaction) : TransactionObject :=
  ⟨t.sender, t.recipient, t.amount, t.fee, t.timestamp, t.signature, t.hash⟩

/-- `Transaction.fromObject`: rebuild through the constructor, then
overwrite the digest with the stored one. -/
def Transaction.fromObject (o : TransactionObject) : Transaction :=
  let t := Transaction.make o.sender o.recipient o.amount o.fee o.timestamp (some o.signature)
  { t with hash := o.hash }

/-- The plain-object rendering of a block (`Block.toObject`). -/
structure BlockObject where
  index : Int
  timestamp : Int
  transactions : List TransactionObject
  previousHash : List Nat
  nonce : Int
  hash : List Nat
  merkleRoot : List Nat
deriving DecidableEq

/-- `Block.toObject`. -/
def Block.toObject (b : Block) : BlockObject :=
  ⟨b.index, b.timestamp, b.transactions.map Transaction.toObject, b.previousHash, b.nonce, b.hash, b.merkleRoot⟩

/-- `Block.fromObject`: rebuild through the constructor (the stored
Merkle root is ignored and recomputed there). -/
def Block.fromObject (o : BlockObject) : Block :=
  Block.make o.index o.timestamp (o.transactions.map Transaction.fromObject) o.previousHash
    (some o.nonce) (some o.hash)

/-- The export format of `Blockchain.exportChain`. -/
structure ChainData where
  chain : List BlockObject
  pendingTransactions : List TransactionObject
  difficulty : Nat
  miningReward : ℚ
  maxTransactionsPerBlock : Nat
deriving DecidableEq

/-- `Blockchain.exportChain`. -/
def Blockchain.exportChain (bc : Blockchain) : ChainData :=
  ⟨bc.chain.map Block.toObject, bc.pendingTransactions.map Transaction.toObject,
    bc.difficulty, bc.miningReward, bc.maxTransactionsPerBlock⟩

/-- `Blockchain.importChain`: the method overwrites every field of the
receiver, so the result is a function of the imported data alone. -/
def Blockchain.importChain (data : ChainData) : Blockchain :=
  ⟨data.chain.map Block.fromObject, data.pendingTransactions.map Transaction.fromObject,
    data.difficulty, data.miningReward, data.maxTransactionsPerBlock⟩

/-- All transactions of all chain blocks, in chain order (spec wording for
the balance claims). -/
def chainTransactions (bc : Blockchain) : List Transaction :=
  (bc.chain.map Block.transactions).flatten

/-- Modelled from the spec's words for the balance derivation: the sum of
`amount` over chain transactions received by the address minus the sum of
`amount + fee` over chain transactions sent by it. -/
def getBalanceSpec (bc : Blockchain) (address : List Nat) : ℚ :=
  (((chainTransactions bc).filter (fun tx => tx.recipient = address)).map Transaction.amount).sum -
    (((chainTransactions bc).filter (fun tx => tx.sender = address)).map
      (fun tx => tx.amount + tx.fee)).sum

/-- Replace the stored timestamp of a block (tampering with one field). -/
def flipTimestamp (t : Int) (b : Block) : Block := { b with timestamp := t }

/-- Validity of the result of a mining run, when it finishes in the fuel. -/
def validAfterMine (difficulty fuel : Nat) (b : Block) : Option Bool :=
  (Block.mineBlockFuel difficulty fuel b).map (fun b' => b'.isValidBlock none none)

/-- Validity of the result of a mining run after its timestamp is replaced
by `t`. -/
def validAfterMineFlip (difficulty fuel : Nat) (t : Int) (b : Block) : Option Bool :=
  (Block.mineBlockFuel difficulty fuel b).map (fun b' => (flipTimestamp t b').isValidBlock none none)

/-- Sample miner / wallet addresses ("M", "A", "B", "Z"). -/
def mAddr : List Nat := [77]

def aAddr : List Nat := [65]

def bAddr : List Nat := [66]

def zAddr : List Nat := [90]

/-- A block holding one coinbase transaction (whose signature is empty,
hence invalid); previous hash "a". -/
def c1BlockA : Block :=
  Block.make 1 3 [Transaction.createCoinbaseTransaction mAddr 5 4] [97] none none

/-- A block with no transactions and previous hash "ab" whose timestamp was
chosen so that the digest collides with the one at timestamp 415636370. -/
def c1BlockB : Block := Block.make 1 3424242279 [] [97, 98] none none

/-- A block carrying a stored digest of 64 zero characters that is not its
recomputed digest (the constructor keeps any non-empty supplied digest). -/
def cexC3Block : Block := Block.make 1 2 [] [97] none (some (List.replicate 64 48))

/-- An empty block whose freshly computed digest already starts with a zero
character, so mining at difficulty 1 finishes with zero iterations. -/
def wBlockEmpty : Block := Block.make 1 4 [] [97] none none

/-- A chain tip for the sample Ledger states; previous hash "z". -/
def wTip : Block := Block.make 0 5 [] [122] none none

/-- Sample valid pool transactions with fee 0.01 each. -/
def wTx1 : Transaction := Transaction.make aAddr bAddr 1 (1 / 100) 1 (some [115])

def wTx2 : Transaction := Transaction.make aAddr bAddr 1 (1 / 100) 2 (some [115])

def wTx3 : Transaction := Transaction.make bAddr aAddr 1 (1 / 100) 3 (some [115])

/-- A sample Ledger: one-block chain, three pending transactions with total
fees 0.03, difficulty 0 (reachable through `importChain`, and making the
nonce search finish immediately), reward 10, at most 5 transactions per
block. -/
def wBC : Blockchain := ⟨[wTip], [wTx1, wTx2, wTx3], 0, 10, 5⟩

def defaultBlock : Block := ⟨0, 0, [], [], 0, [], []⟩

/-- The result of mining `wBC` (defaulted extraction of the two parts). -/
def wPair : Block × Blockchain := (wBC.mineBlock mAddr 9 0).getD (defaultBlock, wBC)

def wMined : Block := wPair.1

def wBC2 : Blockchain := wPair.2

/-- A transaction rejected by `isValid` (sender equals recipient). -/
def wInvalidTx : Transaction := Transaction.make aAddr aAddr 1 0 1 (some [115])

/-- A two-block sample Ledger whose tip arrived less than 15000 ms after
its predecessor. -/
def w9BC : Blockchain := ⟨[wTip, wBlockEmpty], [], 2, 10, 10⟩

/-- `Block.calculateMerkleRoot` reads only the transaction list. -/
theorem Block.calculateMerkleRoot_congr {b₁ b₂ : Block}
    (h : b₁.transactions = b₂.transactions) :
    b₁.calculateMerkleRoot = b₂.calculateMerkleRoot := by
  unfold Block.calculateMerkleRoot
  rw [h]

/-- Mining never touches the index, timestamp, transactions, previous hash
or Merkle root; on completion the digest has the required zero prefix; and
a block whose stored digest is its recomputed digest keeps that property. -/
theorem Block.mineBlockFuel_spec (d : Nat) :
    ∀ (fuel : Nat) (b b' : Block), Block.mineBlockFuel d fuel b = some b' →
      b'.index = b.index ∧ b'.timestamp = b.timestamp ∧
      b'.transactions = b.transactions ∧ b'.previousHash = b.previousHash ∧
      b'.merkleRoot = b.merkleRoot ∧
      b'.hash.take d = List.replicate d 48 ∧
      (b.hash = b.calculateHash → b'.hash = b'.calculateHash) := by
  intro fuel
  induction fuel with
  | zero =>
    intro b b' h
    unfold Block.mineBlockFuel at h
    split at h
    · next hc =>
      cases h
      exact ⟨rfl, rfl, rfl, rfl, rfl, hc, fun hh => hh⟩
    · cases h
  | succ n ih =>
    intro b b' h
    unfold Block.mineBlockFuel at h
    split at h
    · next hc =>
      cases h
      exact ⟨rfl, rfl, rfl, rfl, rfl, hc, fun hh => hh⟩
    · next hc =>
      have res := ih _ _ h
      exact ⟨res.1, res.2.1, res.2.2.1, res.2.2.2.1, res.2.2.2.2.1, res.2.2.2.2.2.1,
        fun _ => res.2.2.2.2.2.2 rfl⟩

/-- Claim C1 (amended): a block built by the `Block` constructor from a
list of transactions that all pass `isValid` and a previous hash satisfies
`isValidBlock()` immediately after a completed `mineBlock(difficulty)`
run; the original claim's second half (flipping any single field always
falsifies `isValidBlock`) is dropped, being false — see the
counterexample. -/
theorem mined_block_isValidBlock (d fuel : Nat) (index timestamp : Int)
    (txs : List Transaction) (prev : List Nat) (b' : Block)
    (hval : txs.all Transaction.isValid = true)
    (h : Block.mineBlockFuel d fuel (Block.make index timestamp txs prev none none) = some b') :
    b'.isValidBlock none none = true := by
  have spec := Block.mineBlockFuel_spec d fuel _ b' h
  have hhash : b'.hash = b'.calculateHash := spec.2.2.2.2.2.2 rfl
  have htx : b'.transactions = txs := spec.2.2.1
  have hmr : b'.merkleRoot = b'.calculateMerkleRoot := by
    rw [spec.2.2.2.2.1, Block.calculateMerkleRoot_congr spec.2.2.1]
    rfl
  have hvt : b'.validateTransactions = true := by
    unfold Block.validateTransactions
    rw [htx]
    exact hval
  unfold Block.isValidBlock
  simp [hhash, hmr, hvt]

set_option maxRecDepth 4000 in
unseal Rat.add Rat.mul Rat.sub Rat.inv in
/-- Claim C1 (counterexample): the first block holds a single coinbase
transaction with an empty signature, so after mining `isValidBlock()` is
`false`; the second block mines to validity, but replacing its timestamp
3424242279 by 415636370 leaves the same digest (the demo hash collides),
so `isValidBlock()` stays `true` after the flip. -/
theorem mined_block_flip_counterexample :
    validAfterMine 1 50 c1BlockA = some false ∧
    validAfterMine 1 50 c1BlockB = some true ∧
    validAfterMineFlip 1 50 415636370 c1BlockB = some true ∧
    ¬((415636370 : Int) = c1BlockB.timestamp) := by decide

set_option maxRecDepth 4000 in
/-- Claim C1 (witness): a concrete empty block mined at difficulty 1 in
zero iterations is valid afterwards. -/
theorem mined_block_isValidBlock_witness : wBlockEmpty.isValidBlock none none = true :=
  mined_block_isValidBlock 1 0 1 4 [] [97] wBlockEmpty rfl (by decide)

/-- Claim C3 (amended): for every difficulty `d ≥ 1`, if `mineBlock(d)`
completes on a block whose stored digest is its recomputed digest (as
holds for every freshly constructed block), the resulting stored digest
satisfies the proof-of-work predicate and still equals the recomputed
digest.  The recomputed-digest half needs the added premise — see the
counterexample. -/
theorem mineBlock_proofOfWork (d : Nat) (hd : 1 ≤ d) (fuel : Nat) (b b' : Block)
    (hinv : b.hash = b.calculateHash)
    (h : Block.mineBlockFuel d fuel b = some b') :
    HashUtil.isValidProofOfWork b'.hash d = true ∧ b'.hash = b'.calculateHash := by
  have spec := Block.mineBlockFuel_spec d fuel b b' h
  refine ⟨?_, spec.2.2.2.2.2.2 hinv⟩
  unfold HashUtil.isValidProofOfWork
  exact decide_eq_true spec.2.2.2.2.2.1

set_option maxRecDepth 4000 in
/-- Claim C3 (counterexample): a block imported with a stored digest of 64
zero characters satisfies difficulty 1, so `mineBlock(1)` completes with
zero iterations, yet the stored digest differs from the recomputed one. -/
theorem mineBlock_staleHash_counterexample :
    Block.mineBlockFuel 1 0 cexC3Block = some cexC3Block ∧
    ¬(cexC3Block.hash = cexC3Block.calculateHash) := by decide

set_option maxRecDepth 4000 in
/-- Claim C3 (witness): a concrete freshly built block mined at
difficulty 1. -/
theorem mineBlock_proofOfWork_witness :
    HashUtil.isValidProofOfWork wBlockEmpty.hash 1 = true ∧
    wBlockEmpty.hash = wBlockEmpty.calculateHash :=
  mineBlock_proofOfWork 1 (by decide) 0 wBlockEmpty wBlockEmpty rfl (by decide)

/-- One combination level halves the level length, rounding up. -/
theorem combinePairs_length (l : List (List Nat)) :
    (combinePairs l).length = (l.length + 1) / 2 := by
  induction l using combinePairs.induct with
  | case1 => simp [combinePairs]
  | case2 x => simp [combinePairs]
  | case3 x y rest ih =>
    simp only [combinePairs, List.length_cons]
    omega

/-- Fuel equal to the level length always suffices for the `while` loop of
`HashUtil.calculateMerkleRoot`: the fuelled loop computes exactly the
repeat-until-one-digest-remains reduction. -/
theorem reduceLevelsFuel_eq_merkleLevels :
    ∀ (fuel : Nat) (hs : List (List Nat)), hs.length ≤ fuel + 1 →
      reduceLevelsFuel fuel hs = merkleLevels hs := by
  intro fuel
  induction fuel with
  | zero =>
    intro hs hlen
    unfold merkleLevels
    rw [dif_neg (by omega)]
    rfl
  | succ n ih =>
    intro hs hlen
    by_cases hbig : 1 < hs.length
    · have hcp : (combinePairs hs).length ≤ n + 1 := by
        rw [combinePairs_length]; omega
      have hstep : merkleLevels hs = merkleLevels (combinePairs hs) := by
        conv_lhs => rw [merkleLevels.eq_def]
        rw [dif_pos hbig]
      calc reduceLevelsFuel (n + 1) hs = reduceLevelsFuel n (combinePairs hs) := by
            simp [reduceLevelsFuel, hbig]
        _ = merkleLevels (combinePairs hs) := ih _ hcp
        _ = merkleLevels hs := hstep.symm
    · unfold merkleLevels
      rw [dif_neg hbig]
      simp [reduceLevelsFuel, hbig]

/-- Claim C4 (amended): the Merkle computation returns the digest of the
empty string on no input and the digest of a single input; for every
sequence of two or more elements it first replaces every element by its
digest and then pairwise-concatenates-and-hashes level by level (the last
element of an odd-count level paired with itself) until one digest
remains — so two digests `a`, `b` give `digest(digest(a) ++ digest(b))`
(not `digest(a ++ b)`), and three give the displayed nested digest. -/
theorem calculateMerkleRoot_spec :
    HashUtil.calculateMerkleRoot [] = HashUtil.sha256Sync [] ∧
    (∀ x, HashUtil.calculateMerkleRoot [x] = HashUtil.sha256Sync x) ∧
    (∀ t₁ t₂ rest, HashUtil.calculateMerkleRoot (t₁ :: t₂ :: rest) =
      (merkleLevels ((t₁ :: t₂ :: rest).map HashUtil.sha256Sync)).headD []) ∧
    (∀ a b, HashUtil.calculateMerkleRoot [a, b] =
      HashUtil.sha256Sync (HashUtil.sha256Sync a ++ HashUtil.sha256Sync b)) ∧
    (∀ a b c, HashUtil.calculateMerkleRoot [a, b, c] =
      HashUtil.sha256Sync (HashUtil.sha256Sync (HashUtil.sha256Sync a ++ HashUtil.sha256Sync b) ++
        HashUtil.sha256Sync (HashUtil.sha256Sync c ++ HashUtil.sha256Sync c))) := by
  refine ⟨rfl, fun x => rfl, fun t₁ t₂ rest => ?_, fun a b => ?_, fun a b c => ?_⟩
  · show (reduceLevelsFuel ((t₁ :: t₂ :: rest).map HashUtil.sha256Sync).length
        ((t₁ :: t₂ :: rest).map HashUtil.sha256Sync)).headD [] = _
    rw [reduceLevelsFuel_eq_merkleLevels _ _ (Nat.le_succ _)]
  · simp [HashUtil.calculateMerkleRoot, reduceLevelsFuel, combinePairs]
  · simp [HashUtil.calculateMerkleRoot, reduceLevelsFuel, combinePairs]

set_option maxRecDepth 4000 in
/-- Claim C4 (counterexample): for the two digests "a" and "b" the Merkle
root is not `digest("a" ++ "b")`, because the level reduction hashes each
leaf once more first. -/
theorem calculateMerkleRoot_counterexample :
    ¬(HashUtil.calculateMerkleRoot [[97], [98]] = HashUtil.sha256Sync ([97] ++ [98])) := by decide

/-- A coinbase transaction is rejected by `isValid`: its signature is the
empty string, which is checked before the "SYSTEM" special case. -/
theorem coinbase_isValid_false (recipient : List Nat) (amount : ℚ) (now : Int) :
    (Transaction.createCoinbaseTransaction recipient amount now).isValid = false := by
  unfold Transaction.createCoinbaseTransaction Transaction.make Transaction.isValid
  split_ifs <;> simp_all

/-- Claim C2: `mineBlock` selects the first `maxTransactionsPerBlock`
pool transactions in order, prepends a coinbase paying the reward plus
their total fees to the miner, links the block to the chain tip's digest,
appends the mined block to the chain, and drops the selected transactions
from the front of the pool; the other parameters are unchanged. -/
theorem mineBlock_spec (bc : Blockchain) (miner : List Nat) (now : Int) (fuel : Nat)
    (tip b : Block) (bc' : Blockchain)
    (htip : bc.chain.getLast? = some tip)
    (h : bc.mineBlock miner now fuel = some (b, bc')) :
    b.transactions =
      Transaction.createCoinbaseTransaction miner
          (bc.miningReward + Blockchain.getTotalFees (bc.pendingTransactions.take bc.maxTransactionsPerBlock)) now ::
        bc.pendingTransactions.take bc.maxTransactionsPerBlock ∧
    b.previousHash = tip.hash ∧
    bc'.chain = bc.chain ++ [b] ∧
    bc'.pendingTransactions = bc.pendingTransactions.drop bc.maxTransactionsPerBlock ∧
    bc'.difficulty = bc.difficulty ∧ bc'.miningReward = bc.miningReward ∧
    bc'.maxTransactionsPerBlock = bc.maxTransactionsPerBlock := by
  unfold Blockchain.mineBlock at h
  rw [htip] at h
  dsimp only at h
  split at h
  · cases h
  · next mined hmine =>
    rw [Option.some.injEq, Prod.mk.injEq] at h
    obtain ⟨hb, hbc⟩ := h
    have spec := Block.mineBlockFuel_spec bc.difficulty fuel _ mined hmine
    subst hb
    subst hbc
    refine ⟨?_, ?_, rfl, rfl, rfl, rfl, rfl⟩
    · rw [spec.2.2.1]; rfl
    · rw [spec.2.2.2.1]; rfl

set_option maxRecDepth 4000 in
unseal Rat.add Rat.mul Rat.sub Rat.inv in
/-- Claim C2 (witness): the spec scenario — three pending transactions of
total fees 0.03, reward 10, at most 5 per block: the coinbase pays 10.03
and the pool is drained. -/
theorem mineBlock_spec_witness :
    wBC.mineBlock mAddr 9 0 = some (wMined, wBC2) ∧
    wMined.transactions =
      Transaction.createCoinbaseTransaction mAddr
          (wBC.miningReward + Blockchain.getTotalFees (wBC.pendingTransactions.take wBC.maxTransactionsPerBlock)) 9 ::
        wBC.pendingTransactions.take wBC.maxTransactionsPerBlock ∧
    wMined.previousHash = wTip.hash ∧
    wBC2.chain = wBC.chain ++ [wMined] ∧
    wBC2.pendingTransactions = [] ∧
    wBC.miningReward + Blockchain.getTotalFees (wBC.pendingTransactions.take wBC.maxTransactionsPerBlock) = 1003 / 100 := by
  have h : wBC.mineBlock mAddr 9 0 = some (wMined, wBC2) := by decide
  have main := mineBlock_spec wBC mAddr 9 0 wTip wMined wBC2 (by decide) h
  exact ⟨h, main.1, main.2.1, main.2.2.1, by decide, by decide⟩

/-- Appending a block whose transactions fail validation after a non-empty
prefix makes the chain walk fail. -/
theorem chainStepsValid_append_invalid (d : Nat) :
    ∀ (c : List Block) (p b : Block), c.getLast? = some p →
      b.validateTransactions = false → chainStepsValid d (c ++ [b]) = false := by
  intro c
  induction c with
  | nil => intro p b hp _; simp at hp
  | cons x rest ih =>
    intro p b hp hv
    cases rest with
    | nil =>
      simp only [List.cons_append, List.nil_append]
      simp [chainStepsValid, Block.isValidBlock, hv]
    | cons y rest2 =>
      rw [List.getLast?_cons_cons] at hp
      have hrec := ih p b hp hv
      simp only [List.cons_append] at hrec ⊢
      simp [chainStepsValid, hrec]

/-- Claim C10: whenever `Blockchain.mineBlock` completes, the new block's
first transaction is a coinbase from "SYSTEM" whose signature is the empty
string, `Transaction.isValid` rejects it, the block fails
`validateTransactions`, and `isChainValid()` on the resulting Ledger is
`false`. -/
theorem mineBlock_invalidates_chain (bc : Blockchain) (miner : List Nat) (now : Int)
    (fuel : Nat) (b : Block) (bc' : Blockchain)
    (h : bc.mineBlock miner now fuel = some (b, bc')) :
    Option.map Transaction.sender b.transactions.head? = some SYSTEM ∧
    Option.map Transaction.signature b.transactions.head? = some [] ∧
    Option.map Transaction.isValid b.transactions.head? = some false ∧
    b.validateTransactions = false ∧
    bc'.isChainValid = false := by
  unfold Blockchain.mineBlock at h
  cases hlatest : bc.chain.getLast? with
  | none => rw [hlatest] at h; simp at h
  | some latest =>
    rw [hlatest] at h
    dsimp only at h
    split at h
    · cases h
    · next mined hmine =>
      rw [Option.some.injEq, Prod.mk.injEq] at h
      obtain ⟨hb, hbc⟩ := h
      have spec := Block.mineBlockFuel_spec bc.difficulty fuel _ mined hmine
      have htx : mined.transactions =
          Transaction.createCoinbaseTransaction miner
              (bc.miningReward +
                Blockchain.getTotalFees (bc.pendingTransactions.take bc.maxTransactionsPerBlock)) now ::
            bc.pendingTransactions.take bc.maxTransactionsPerBlock := spec.2.2.1
      have hval : mined.validateTransactions = false := by
        unfold Block.validateTransactions
        rw [htx]
        simp [coinbase_isValid_false]
      subst hb
      subst hbc
      refine ⟨?_, ?_, ?_, hval, ?_⟩
      · rw [htx]; rfl
      · rw [htx]; rfl
      · rw [htx]
        simp [coinbase_isValid_false]
      · unfold Blockchain.isChainValid
        exact chainStepsValid_append_invalid bc.difficulty bc.chain latest mined hlatest hval

set_option maxRecDepth 4000 in
unseal Rat.add Rat.mul Rat.sub Rat.inv in
/-- Claim C10 (witness): mining the sample Ledger yields a tip whose
coinbase is invalid and a Ledger whose chain no longer validates. -/
theorem mineBlock_invalidates_chain_witness :
    Option.map Transaction.isValid wMined.transactions.head? = some false ∧
    wMined.validateTransactions = false ∧
    wBC2.isChainValid = false := by
  have h : wBC.mineBlock mAddr 9 0 = some (wMined, wBC2) := by decide
  have main := mineBlock_invalidates_chain wBC mAddr 9 0 wMined wBC2 h
  exact ⟨main.2.2.1, main.2.2.2.1, main.2.2.2.2⟩

/-- The inner transaction fold of `getBalance`, described by filtered
sums: the fold adds received amounts and subtracts sent amounts plus
fees. -/
theorem getBalance_fold_eq (a : List Nat) :
    ∀ (txs : List Transaction) (init : ℚ),
      txs.foldl (fun bal tx =>
          let bal := if tx.recipient = a then bal + tx.amount else bal
          if tx.sender = a then bal - (tx.amount + tx.fee) else bal) init =
        init + ((txs.filter fun tx => tx.recipient = a).map Transaction.amount).sum -
          ((txs.filter fun tx => tx.sender = a).map (fun tx => tx.amount + tx.fee)).sum := by
  intro txs
  induction txs with
  | nil => intro init; simp
  | cons tx rest ih =>
    intro init
    simp only [List.foldl_cons, List.filter_cons]
    rw [ih]
    by_cases h1 : tx.recipient = a <;> by_cases h2 : tx.sender = a <;>
      simp [h1, h2] <;> ring

/-- Claim C5: `getBalance` equals the filtered-sum description of the
spec, is a pure function of the chain, and is zero for an address that
appears in no chain transaction. -/
theorem getBalance_props (bc : Blockchain) (a : List Nat) :
    bc.getBalance a = getBalanceSpec bc a ∧
    (∀ bc₂ : Blockchain, bc.chain = bc₂.chain → bc.getBalance a = bc₂.getBalance a) ∧
    ((∀ tx ∈ chainTransactions bc, ¬(tx.recipient = a) ∧ ¬(tx.sender = a)) →
      bc.getBalance a = 0) := by
  have hmain : bc.getBalance a = getBalanceSpec bc a := by
    unfold Blockchain.getBalance getBalanceSpec chainTransactions
    have key : ∀ (blocks : List Block) (init : ℚ),
        blocks.foldl (fun bal block =>
            block.transactions.foldl (fun bal tx =>
              let bal := if tx.recipient = a then bal + tx.amount else bal
              if tx.sender = a then bal - (tx.amount + tx.fee) else bal) bal) init =
          init +
            ((((blocks.map Block.transactions).flatten.filter fun tx => tx.recipient = a).map
                Transaction.amount).sum) -
            ((((blocks.map Block.transactions).flatten.filter fun tx => tx.sender = a).map
                (fun tx => tx.amount + tx.fee)).sum) := by
      intro blocks
      induction blocks with
      | nil => intro init; simp
      | cons blk rest ih =>
        intro init
        simp only [List.foldl_cons, List.map_cons, List.flatten_cons, List.filter_append,
          List.map_append, List.sum_append]
        rw [getBalance_fold_eq a blk.transactions init, ih]
        ring
    rw [key bc.chain 0]
    ring
  refine ⟨hmain, ?_, ?_⟩
  · intro bc₂ hch
    unfold Blockchain.getBalance
    rw [hch]
  · intro hnone
    rw [hmain]
    unfold getBalanceSpec
    have h1 : (chainTransactions bc).filter (fun tx => tx.recipient = a) = [] :=
      List.filter_eq_nil_iff.mpr (fun tx htx => by simpa using (hnone tx htx).1)
    have h2 : (chainTransactions bc).filter (fun tx => tx.sender = a) = [] :=
      List.filter_eq_nil_iff.mpr (fun tx htx => by simpa using (hnone tx htx).2)
    rw [h1, h2]
    simp

set_option maxRecDepth 4000 in
unseal Rat.add Rat.mul Rat.sub Rat.inv in
/-- Claim C5 (witness): the address "Z" appears nowhere in the sample
chain, so its balance is 0. -/
theorem getBalance_props_witness : wBC.getBalance zAddr = 0 :=
  (getBalance_props wBC zAddr).2.2 (by decide)

/-- Claim C6: `addTransaction` returns `false` with the state unchanged
whenever the transaction is invalid, or the sender is not "SYSTEM" with a
chain balance below `amount + fee`, or a pool transaction already carries
the same digest; otherwise it appends the transaction at the back of the
pool and returns `true`. -/
theorem addTransaction_spec (bc : Blockchain) (t : Transaction) :
    ((t.isValid = false ∨ (t.sender ≠ SYSTEM ∧ bc.getBalance t.sender < t.amount + t.fee) ∨
        (∃ tx ∈ bc.pendingTransactions, tx.hash = t.hash)) →
      bc.addTransaction t = (false, bc)) ∧
    (t.isValid = true →
      (t.sender = SYSTEM ∨ ¬(bc.getBalance t.sender < t.amount + t.fee)) →
      (∀ tx ∈ bc.pendingTransactions, ¬(tx.hash = t.hash)) →
      bc.addTransaction t =
        (true, { bc with pendingTransactions := bc.pendingTransactions ++ [t] })) := by
  constructor
  · intro hcase
    unfold Blockchain.addTransaction
    by_cases h1 : t.isValid = false
    · rw [if_pos h1]
    · rw [if_neg h1]
      by_cases h2 : t.sender ≠ SYSTEM ∧ bc.getBalance t.sender < t.amount + t.fee
      · rw [if_pos h2]
      · rw [if_neg h2]
        have h3 : bc.pendingTransactions.any (fun tx => decide (tx.hash = t.hash)) = true := by
          rcases hcase with hv | hb | ⟨tx, htx, hh⟩
          · exact absurd hv h1
          · exact absurd hb h2
          · exact List.any_eq_true.mpr ⟨tx, htx, decide_eq_true hh⟩
        rw [if_pos h3]
  · intro hv hb hdup
    unfold Blockchain.addTransaction
    rw [if_neg (by simp [hv]), if_neg ?_, if_neg ?_]
    · intro hany
      obtain ⟨tx, htx, hh⟩ := List.any_eq_true.mp hany
      exact hdup tx htx (of_decide_eq_true hh)
    · rintro ⟨hs, hbal⟩
      rcases hb with hb | hb
      · exact hs hb
      · exact hb hbal

set_option maxRecDepth 4000 in
unseal Rat.add Rat.mul Rat.sub Rat.inv in
/-- Claim C6 (witness): a self-transfer is invalid, so admission fails and
the sample Ledger is unchanged. -/
theorem addTransaction_spec_witness : wBC.addTransaction wInvalidTx = (false, wBC) :=
  (addTransaction_spec wBC wInvalidTx).1 (Or.inl (by decide))

/-- Claim C7: `isValid` holds exactly when the sender differs from the
recipient, the amount is positive, the fee is nonnegative and the
signature is non-empty; the "SYSTEM" sender is exempt only from signature
verification, not from these four checks. -/
theorem isValid_iff (t : Transaction) :
    t.isValid = true ↔
      (t.sender ≠ t.recipient ∧ 0 < t.amount ∧ 0 ≤ t.fee ∧ t.signature ≠ []) := by
  unfold Transaction.isValid
  split_ifs <;> simp_all

/-- A transaction survives the object round trip unchanged (every field,
including the stored digest, is restored). -/
theorem Transaction.fromObject_toObject (t : Transaction) :
    Transaction.fromObject (Transaction.toObject t) = t := rfl

/-- A block with a non-empty stored digest keeps that digest across the
object round trip (`fromObject` recomputes it only for a falsy value). -/
theorem Block.fromObject_toObject_hash (b : Block) (h : ¬(b.hash = [])) :
    (Block.fromObject (Block.toObject b)).hash = b.hash := by
  unfold Block.fromObject Block.toObject Block.make
  simp [h]

/-- Claim C8: exporting a Ledger and importing the result reproduces the
block digest at every chain position, the exact pending pool, and the
difficulty, mining reward and per-block transaction cap.  The hypothesis
that stored block digests are non-empty holds for every Ledger the engine
can build, since the digest function never returns an empty string. -/
theorem exportImport_roundtrip (bc : Blockchain) (h : ∀ b ∈ bc.chain, ¬(b.hash = [])) :
    (Blockchain.importChain bc.exportChain).chain.map Block.hash = bc.chain.map Block.hash ∧
    (Blockchain.importChain bc.exportChain).pendingTransactions = bc.pendingTransactions ∧
    (Blockchain.importChain bc.exportChain).difficulty = bc.difficulty ∧
    (Blockchain.importChain bc.exportChain).miningReward = bc.miningReward ∧
    (Blockchain.importChain bc.exportChain).maxTransactionsPerBlock = bc.maxTransactionsPerBlock := by
  refine ⟨?_, ?_, rfl, rfl, rfl⟩
  · show ((bc.chain.map Block.toObject).map Block.fromObject).map Block.hash = bc.chain.map Block.hash
    rw [List.map_map, List.map_map]
    exact List.map_congr_left fun b hb => Block.fromObject_toObject_hash b (h b hb)
  · show (bc.pendingTransactions.map Transaction.toObject).map Transaction.fromObject =
      bc.pendingTransactions
    rw [List.map_map]
    have hco : (Transaction.fromObject ∘ Transaction.toObject) = id :=
      funext fun t => Transaction.fromObject_toObject t
    rw [hco, List.map_id]

set_option maxRecDepth 4000 in
unseal Rat.add Rat.mul Rat.sub Rat.inv in
/-- Claim C8 (witness): the sample Ledger round-trips. -/
theorem exportImport_roundtrip_witness :
    (Blockchain.importChain wBC.exportChain).chain.map Block.hash = wBC.chain.map Block.hash ∧
    (Blockchain.importChain wBC.exportChain).pendingTransactions = wBC.pendingTransactions ∧
    (Blockchain.importChain wBC.exportChain).difficulty = wBC.difficulty ∧
    (Blockchain.importChain wBC.exportChain).miningReward = wBC.miningReward ∧
    (Blockchain.importChain wBC.exportChain).maxTransactionsPerBlock = wBC.maxTransactionsPerBlock :=
  exportImport_roundtrip wBC (by decide)

/-- Claim C9: with fewer than two blocks `adjustDifficulty` changes
nothing; otherwise it compares the timestamp delta of the two most recent
blocks with the 30000 ms target: strictly under half raises the
difficulty by one, strictly over double lowers it by one with floor 1,
and anything in between leaves the state unchanged. -/
theorem adjustDifficulty_spec (bc : Blockchain) :
    (bc.chain.length < 2 → bc.adjustDifficulty = bc) ∧
    (∀ prevB lastB, bc.chain.getLast? = some lastB →
      bc.chain.get? (bc.chain.length - 2) = some prevB → ¬(bc.chain.length < 2) →
      ((lastB.timestamp - prevB.timestamp < 15000 →
          bc.adjustDifficulty = { bc with difficulty := bc.difficulty + 1 }) ∧
        (lastB.timestamp - prevB.timestamp > 60000 →
          bc.adjustDifficulty = { bc with difficulty := max 1 (bc.difficulty - 1) }) ∧
        (15000 ≤ lastB.timestamp - prevB.timestamp →
          lastB.timestamp - prevB.timestamp ≤ 60000 → bc.adjustDifficulty = bc))) := by
  constructor
  · intro hlen
    unfold Blockchain.adjustDifficulty
    rw [if_pos hlen]
  · intro prevB lastB hlast hget hlen
    unfold Blockchain.adjustDifficulty
    rw [if_neg hlen, hlast, hget]
    dsimp only
    have htgt : targetBlockTime / 2 = 15000 := by decide
    have htgt2 : targetBlockTime * 2 = 60000 := by decide
    rw [htgt, htgt2]
    refine ⟨fun hfast => ?_, fun hslow => ?_, fun hlo hhi => ?_⟩
    · rw [if_pos hfast]
    · rw [if_neg (by omega), if_pos hslow]
    · rw [if_neg (by omega), if_neg (by omega)]

set_option maxRecDepth 4000 in
/-- Claim C9 (witness): in the sample two-block Ledger the tip arrived one
millisecond before its predecessor, under half the target, so the
difficulty rises by one. -/
theorem adjustDifficulty_spec_witness :
    w9BC.adjustDifficulty = { w9BC with difficulty := w9BC.difficulty + 1 } :=
  ((adjustDifficulty_spec w9BC).2 wTip wBlockEmpty (by decide) (by decide) (by decide)).1
    (by decide)

/-- The digest function never returns the empty string; hence every block
the engine itself builds (constructor, mining, import) stores a non-empty
digest, which grounds the premise of the round-trip theorem. -/
theorem HashUtil.sha256Sync_ne_nil (data : List Nat) : ¬(HashUtil.sha256Sync data = []) := by
  intro hcontra
  have hlen := congrArg List.length hcontra
  simp [HashUtil.sha256Sync, padStartZeros, List.length_take, List.length_flatten] at hlen
  obtain ⟨h1, h2, _⟩ := hlen
  rw [h2] at h1
  simp at h1
